import Mathlib

/-!
Shallow embedding of the DPLL SAT solver from src/src/main.rs.

Data model: a literal is a variable name with a negation flag, a clause is a
list of literals, a CNF is a list of clauses, and an assignment is an
association list from names to booleans. The Rust code uses a HashMap whose
only observable operations here are get, contains_key and insert; insert is
modelled by consing, whose lookup behavior agrees with HashMap insert.

The two recursive Rust functions, unit_propagate (a loop) and dpll
(recursion), are embedded fuel-indexed as unit_propagateF and dpllF, with the
outer Option recording fuel exhaustion. Sufficiency of the chosen fuel is
proved (unit_propagateF_total and dpllF_total below), and total wrappers
unit_propagate and dpll are defined with that fuel, so the wrappers are the
exact semantics of the Rust functions.
-/

structure Literal where
  name : String
  negated : Bool
  deriving DecidableEq, Repr

abbrev Clause := List Literal

abbrev CNF := List Clause

abbrev Assignment := List (String × Bool)

/-- Embedding of HashMap::get on the association list. -/
def lookupA : Assignment → String → Option Bool
  | [], _ => none
  | (k, v) :: rest, n => if k = n then some v else lookupA rest n

/-- Embedding of HashMap::insert. Consing shadows any older binding, which
matches the overwrite semantics of HashMap insert as seen through get. -/
def insertA (a : Assignment) (n : String) (v : Bool) : Assignment :=
  (n, v) :: a

/-- A literal evaluates to true under the assignment: the condition
`value != literal.negated` from the first retain in simplify. -/
def literalTrue (a : Assignment) (l : Literal) : Bool :=
  match lookupA a l.name with
  | some v => v != l.negated
  | none => false

/-- The condition of the second retain in simplify: a literal is kept when
its variable is unassigned or `value == literal.negated`. -/
def keepLiteral (a : Assignment) (l : Literal) : Bool :=
  match lookupA a l.name with
  | some v => v == l.negated
  | none => true

/-- Embedding of fn simplify: drop clauses containing a true literal, filter
the literals of the remaining clauses by keepLiteral, and fail if any
resulting clause is empty. -/
def simplify (cnf : CNF) (a : Assignment) : Option CNF :=
  let step1 := cnf.filter (fun clause => ! clause.any (fun l => literalTrue a l))
  let step2 := step1.map (fun clause => clause.filter (fun l => keepLiteral a l))
  if step2.any (fun clause => clause.isEmpty) then none else some step2

/-- Embedding of the find_map over clauses in unit_propagate: the first
clause holding exactly one literal. -/
def findUnit (cnf : CNF) : Option Literal :=
  cnf.findSome? (fun clause =>
    match clause with
    | [l] => some l
    | _ => none)

/-- Fuel-indexed embedding of fn unit_propagate. The outer Option is none
exactly when the fuel runs out; otherwise the pair holds the mutated
assignment and the Option CNF the Rust function returns. -/
def unit_propagateF : Nat → CNF → Assignment → Option (Assignment × Option CNF)
  | 0, _, _ => none
  | fuel + 1, cnf, a =>
    match findUnit cnf with
    | none => some (a, some cnf)
    | some u =>
      match lookupA a u.name with
      | some existing =>
        if existing != !u.negated then some (a, none)
        else
          match simplify cnf a with
          | none => some (a, none)
          | some cnf2 => unit_propagateF fuel cnf2 a
      | none =>
        match simplify cnf (insertA a u.name (!u.negated)) with
        | none => some (insertA a u.name (!u.negated), none)
        | some cnf2 => unit_propagateF fuel cnf2 (insertA a u.name (!u.negated))

/-- A unit clause found by findUnit really is a singleton clause of the CNF. -/
theorem findUnit_mem {cnf : CNF} {u : Literal} (h : findUnit cnf = some u) :
    [u] ∈ cnf := by
  induction cnf with
  | nil => simp [findUnit] at h
  | cons c rest ih =>
    rw [findUnit, List.findSome?_cons] at h
    match c with
    | [] => exact List.mem_cons_of_mem _ (ih h)
    | [l] =>
      simp only [Option.some.injEq] at h
      subst h
      exact List.mem_cons_self _ _
    | l1 :: l2 :: ls => exact List.mem_cons_of_mem _ (ih h)

/-- When some clause of the CNF is a singleton, findUnit finds a unit. -/
theorem findUnit_isSome {cnf : CNF} {x : Literal} (h : [x] ∈ cnf) :
    (findUnit cnf).isSome := by
  induction cnf with
  | nil => simp at h
  | cons c rest ih =>
    rw [findUnit, List.findSome?_cons]
    rcases List.mem_cons.mp h with h1 | h2
    · subst h1
      simp
    · match c with
      | [] => exact ih h2
      | [l] => simp
      | l1 :: l2 :: ls => exact ih h2

/-- Simplification never lengthens the CNF. -/
theorem simplify_length_le {cnf cnf2 : CNF} {a : Assignment}
    (h : simplify cnf a = some cnf2) : cnf2.length ≤ cnf.length := by
  simp only [simplify] at h
  split at h
  · exact absurd h (by simp)
  · simp only [Option.some.injEq] at h
    subst h
    rw [List.length_map]
    exact List.length_filter_le _ _

/-- If some clause of the CNF is already satisfied, simplification strictly
shortens the CNF. -/
theorem simplify_length_lt {cnf cnf2 : CNF} {a : Assignment} {c : Clause}
    (hc : c ∈ cnf) (ht : ∃ l ∈ c, literalTrue a l = true)
    (h : simplify cnf a = some cnf2) : cnf2.length < cnf.length := by
  simp only [simplify] at h
  split at h
  · exact absurd h (by simp)
  · simp only [Option.some.injEq] at h
    subst h
    rw [List.length_map]
    refine List.length_filter_lt_length_iff_exists.mpr ⟨c, hc, ?_⟩
    obtain ⟨l, hl, hlt⟩ := ht
    have hany : List.any c (fun l => literalTrue a l) = true :=
      List.any_eq_true.mpr ⟨l, hl, hlt⟩
    simp [hany]

/-- A resolved unit literal is true under the updated assignment, existing
branch: the recorded value equals the value to assign. -/
theorem literalTrue_of_lookup_eq {a : Assignment} {u : Literal}
    (h : lookupA a u.name = some (!u.negated)) : literalTrue a u = true := by
  unfold literalTrue
  rw [h]
  simp

/-- Lookup after insertA on the inserted name. -/
theorem lookupA_insertA_self (a : Assignment) (n : String) (v : Bool) :
    lookupA (insertA a n v) n = some v := by
  simp [insertA, lookupA]

/-- Lookup after insertA on a different name. -/
theorem lookupA_insertA_ne (a : Assignment) {n m : String} (v : Bool)
    (h : n ≠ m) : lookupA (insertA a n v) m = lookupA a m := by
  simp [insertA, lookupA, h]

/-- The fuel cnf.length + 1 always suffices for unit_propagateF: every loop
iteration strictly shortens the CNF, because the clause of the resolved unit
literal is satisfied and hence dropped by the simplification it triggers. -/
theorem unit_propagateF_total :
    ∀ fuel cnf a, cnf.length < fuel → (unit_propagateF fuel cnf a).isSome := by
  intro fuel
  induction fuel with
  | zero => intro cnf a h; omega
  | succ f ih =>
    intro cnf a h
    rw [unit_propagateF]
    split
    · simp
    · rename_i u hu
      have hmem : [u] ∈ cnf := findUnit_mem hu
      split
      · rename_i existing hex
        split
        · simp
        · rename_i hne
          have hveq : existing = !u.negated := by
            by_contra hne2
            exact hne (bne_iff_ne.mpr hne2)
          subst hveq
          split
          · simp
          · rename_i cnf2 hs
            have hlt : cnf2.length < cnf.length :=
              simplify_length_lt hmem
                ⟨u, List.mem_singleton_self u, literalTrue_of_lookup_eq hex⟩ hs
            exact ih cnf2 a (by omega)
      · rename_i hex
        split
        · simp
        · rename_i cnf2 hs
          have htrue : literalTrue (insertA a u.name (!u.negated)) u = true :=
            literalTrue_of_lookup_eq (lookupA_insertA_self a u.name (!u.negated))
          have hlt : cnf2.length < cnf.length :=
            simplify_length_lt hmem ⟨u, List.mem_singleton_self u, htrue⟩ hs
          exact ih cnf2 _ (by omega)

/-- Total wrapper for unit_propagate: run the fueled embedding with the
(sufficient) fuel cnf.length + 1. -/
def unit_propagate (cnf : CNF) (a : Assignment) : Assignment × Option CNF :=
  (unit_propagateF (cnf.length + 1) cnf a).get
    (unit_propagateF_total _ cnf a (Nat.lt_succ_self _))

/-- The wrapper agrees with the fueled embedding. -/
theorem unit_propagate_eq (cnf : CNF) (a : Assignment) :
    unit_propagateF (cnf.length + 1) cnf a = some (unit_propagate cnf a) :=
  (Option.some_get _).symm

/-- Embedding of fn pick_literal: the first literal, in clause order then
literal order, whose variable has no entry in the assignment. -/
def pick_literal (cnf : CNF) (a : Assignment) : Option Literal :=
  cnf.findSome? (fun clause => clause.find? (fun l => (lookupA a l.name).isNone))

/-- Fuel-indexed embedding of fn dpll. The outer Option is none exactly when
the fuel runs out; otherwise the pair holds the caller-visible mutated
assignment and the Option Assignment the Rust function returns. The two
iterations of the branch loop over the values true and false, with its early
return on success, are unrolled. -/
def dpllF : Nat → CNF → Assignment → Option (Assignment × Option Assignment)
  | 0, _, _ => none
  | fuel + 1, cnf, a =>
    match unit_propagate cnf a with
    | (a1, none) => some (a1, none)
    | (a1, some cnf1) =>
      if cnf1.isEmpty then some (a1, some a1)
      else if cnf1.any (fun clause => clause.isEmpty) then some (a1, none)
      else
        match pick_literal cnf1 a1 with
        | none => if cnf1.isEmpty then some (a1, some a1) else some (a1, none)
        | some lit =>
          match dpllF fuel cnf1 (insertA a1 lit.name true) with
          | none => none
          | some (_, some r) => some (a1, some r)
          | some (_, none) =>
            match dpllF fuel cnf1 (insertA a1 lit.name false) with
            | none => none
            | some (_, some r) => some (a1, some r)
            | some (_, none) => some (a1, none)

/-- The list of variable names occurring in a CNF, with repetitions. -/
def cnfVars (cnf : CNF) : List String :=
  cnf.foldr (fun c acc => c.map Literal.name ++ acc) []

/-- Membership in cnfVars means occurrence in some clause. -/
theorem mem_cnfVars {cnf : CNF} {n : String} :
    n ∈ cnfVars cnf ↔ ∃ c ∈ cnf, ∃ l ∈ c, l.name = n := by
  induction cnf with
  | nil => simp [cnfVars]
  | cons c rest ih =>
    have hstep : cnfVars (c :: rest) = c.map Literal.name ++ cnfVars rest := rfl
    rw [hstep]
    simp only [List.mem_append, List.mem_map, ih, List.mem_cons]
    constructor
    · rintro (⟨l, hl, hn⟩ | ⟨c2, hc2, l, hl, hn⟩)
      · exact ⟨c, Or.inl rfl, l, hl, hn⟩
      · exact ⟨c2, Or.inr hc2, l, hl, hn⟩
    · rintro ⟨c2, hc2 | hc2, l, hl, hn⟩
      · subst hc2; exact Or.inl ⟨l, hl, hn⟩
      · exact Or.inr ⟨c2, hc2, l, hl, hn⟩

/-- The unassigned variables of a CNF under an assignment, as a finite set. -/
def unassignedVars (cnf : CNF) (a : Assignment) : Finset String :=
  ((cnfVars cnf).filter (fun n => (lookupA a n).isNone)).toFinset

/-- Membership in unassignedVars. -/
theorem mem_unassignedVars {cnf : CNF} {a : Assignment} {n : String} :
    n ∈ unassignedVars cnf a ↔ n ∈ cnfVars cnf ∧ lookupA a n = none := by
  simp [unassignedVars, List.mem_filter, Option.isNone_iff_eq_none]

/-- Simplification only removes clauses and literals, so it cannot introduce
new variables. -/
theorem simplify_vars {cnf cnf2 : CNF} {a : Assignment}
    (h : simplify cnf a = some cnf2) {n : String} (hn : n ∈ cnfVars cnf2) :
    n ∈ cnfVars cnf := by
  simp only [simplify] at h
  split at h
  · exact absurd h (by simp)
  · simp only [Option.some.injEq] at h
    subst h
    obtain ⟨c2, hc2, l, hl, hname⟩ := mem_cnfVars.mp hn
    obtain ⟨c1, hc1, hmap⟩ := List.mem_map.mp hc2
    subst hmap
    exact mem_cnfVars.mpr
      ⟨c1, (List.mem_filter.mp hc1).1, l, (List.mem_filter.mp hl).1, hname⟩

/-- Unit propagation never removes or changes an existing assignment entry:
it inserts only variables that have no entry yet. -/
theorem unit_propagateF_mono :
    ∀ fuel cnf a a1 r, unit_propagateF fuel cnf a = some (a1, r) →
      ∀ n v, lookupA a n = some v → lookupA a1 n = some v := by
  intro fuel
  induction fuel with
  | zero => intro cnf a a1 r h; exact absurd h (by simp [unit_propagateF])
  | succ f ih =>
    intro cnf a a1 r h n v hv
    rw [unit_propagateF] at h
    split at h
    · simp only [Option.some.injEq, Prod.mk.injEq] at h
      rw [← h.1]; exact hv
    · rename_i u hu
      split at h
      · rename_i existing hex
        split at h
        · simp only [Option.some.injEq, Prod.mk.injEq] at h
          rw [← h.1]; exact hv
        · split at h
          · simp only [Option.some.injEq, Prod.mk.injEq] at h
            rw [← h.1]; exact hv
          · exact ih _ _ _ _ h n v hv
      · rename_i hex
        have hv2 : lookupA (insertA a u.name (!u.negated)) n = some v := by
          by_cases hnn : u.name = n
          · rw [hnn] at hex; rw [hex] at hv; exact absurd hv (by simp)
          · rw [lookupA_insertA_ne a _ hnn]; exact hv
        split at h
        · simp only [Option.some.injEq, Prod.mk.injEq] at h
          rw [← h.1]; exact hv2
        · exact ih _ _ _ _ h n v hv2

/-- Unit propagation only shrinks the CNF, so it cannot introduce new
variables. -/
theorem unit_propagateF_vars :
    ∀ fuel cnf a a1 cnf1, unit_propagateF fuel cnf a = some (a1, some cnf1) →
      ∀ n, n ∈ cnfVars cnf1 → n ∈ cnfVars cnf := by
  intro fuel
  induction fuel with
  | zero => intro cnf a a1 cnf1 h; exact absurd h (by simp [unit_propagateF])
  | succ f ih =>
    intro cnf a a1 cnf1 h n hn
    rw [unit_propagateF] at h
    split at h
    · simp only [Option.some.injEq, Prod.mk.injEq] at h
      rw [h.2]; exact hn
    · rename_i u hu
      split at h
      · rename_i existing hex
        split at h
        · simp at h
        · split at h
          · simp at h
          · rename_i cnf2 hs
            exact simplify_vars hs (ih _ _ _ _ h n hn)
      · rename_i hex
        split at h
        · simp at h
        · rename_i cnf2 hs
          exact simplify_vars hs (ih _ _ _ _ h n hn)

/-- What pick_literal returns: a literal occurring in the CNF whose variable
is unassigned. -/
theorem pick_literal_spec {cnf : CNF} {a : Assignment} {l : Literal}
    (h : pick_literal cnf a = some l) :
    l.name ∈ cnfVars cnf ∧ lookupA a l.name = none := by
  induction cnf with
  | nil => simp [pick_literal] at h
  | cons c rest ih =>
    rw [pick_literal, List.findSome?_cons] at h
    cases hf : c.find? (fun l => (lookupA a l.name).isNone) with
    | some l2 =>
      rw [hf] at h
      simp only [Option.some.injEq] at h
      subst h
      have hmem : l2 ∈ c := List.mem_of_find?_eq_some hf
      have hpred := List.find?_some hf
      exact ⟨mem_cnfVars.mpr ⟨c, List.mem_cons_self c rest, l2, hmem, rfl⟩,
        Option.isNone_iff_eq_none.mp hpred⟩
    | none =>
      rw [hf] at h
      obtain ⟨h1, h2⟩ := ih h
      exact ⟨by
        obtain ⟨c2, hc2, l2, hl2, hn⟩ := mem_cnfVars.mp h1
        exact mem_cnfVars.mpr ⟨c2, List.mem_cons_of_mem c hc2, l2, hl2, hn⟩, h2⟩

/-- The measure for the branching recursion: once a frame has propagated to
cnf1 with assignment a1 and picked the unassigned literal lit, each of the
two recursive calls sees strictly fewer unassigned variables than the frame
saw at entry. -/
theorem unassignedVars_branch_lt {cnf cnf1 : CNF} {a a1 : Assignment}
    {lit : Literal} (v : Bool)
    (hvars : ∀ n, n ∈ cnfVars cnf1 → n ∈ cnfVars cnf)
    (hmono : ∀ n w, lookupA a n = some w → lookupA a1 n = some w)
    (hname : lit.name ∈ cnfVars cnf1) (hun : lookupA a1 lit.name = none) :
    (unassignedVars cnf1 (insertA a1 lit.name v)).card <
      (unassignedVars cnf a).card := by
  have hnone : ∀ n, lookupA a1 n = none → lookupA a n = none := by
    intro n hn
    cases hw : lookupA a n with
    | none => rfl
    | some w => rw [hmono n w hw] at hn; exact absurd hn (by simp)
  have hsub : unassignedVars cnf1 (insertA a1 lit.name v) ⊆
      (unassignedVars cnf a).erase lit.name := by
    intro n hn
    obtain ⟨hv1, hv2⟩ := mem_unassignedVars.mp hn
    have hne : lit.name ≠ n := by
      intro heq
      rw [← heq, lookupA_insertA_self] at hv2
      exact absurd hv2 (by simp)
    rw [lookupA_insertA_ne a1 v hne] at hv2
    exact Finset.mem_erase.mpr ⟨fun h => hne h.symm,
      mem_unassignedVars.mpr ⟨hvars n hv1, hnone n hv2⟩⟩
  have hx : lit.name ∈ unassignedVars cnf a :=
    mem_unassignedVars.mpr ⟨hvars lit.name hname, hnone lit.name hun⟩
  calc (unassignedVars cnf1 (insertA a1 lit.name v)).card
      ≤ ((unassignedVars cnf a).erase lit.name).card := Finset.card_le_card hsub
    _ < (unassignedVars cnf a).card := Finset.card_erase_lt_of_mem hx

/-- The fuel (number of unassigned variables) + 1 always suffices for dpllF:
every nested branch binds one previously unassigned variable of the CNF it
recurses on, so the recursion depth is bounded by the number of distinct
unassigned variables. -/
theorem dpllF_total :
    ∀ fuel cnf a, (unassignedVars cnf a).card < fuel →
      (dpllF fuel cnf a).isSome := by
  intro fuel
  induction fuel with
  | zero => intro cnf a h; omega
  | succ f ih =>
    intro cnf a h
    rw [dpllF]
    rcases hup : unit_propagate cnf a with ⟨a1, ur⟩
    have hupF : unit_propagateF (cnf.length + 1) cnf a = some (a1, ur) := by
      rw [unit_propagate_eq, hup]
    cases ur with
    | none => simp
    | some cnf1 =>
      simp only
      split
      · simp
      · split
        · simp
        · cases hp : pick_literal cnf1 a1 with
          | none => simp
          | some lit =>
            simp only
            obtain ⟨hname, hun⟩ := pick_literal_spec hp
            have hvars := unit_propagateF_vars _ _ _ _ _ hupF
            have hmono := unit_propagateF_mono _ _ _ _ _ hupF
            have hlt1 := unassignedVars_branch_lt true hvars hmono hname hun
            have hlt2 := unassignedVars_branch_lt false hvars hmono hname hun
            have h1 : (dpllF f cnf1 (insertA a1 lit.name true)).isSome :=
              ih _ _ (by omega)
            rcases ho1 : dpllF f cnf1 (insertA a1 lit.name true) with _ | ⟨a2, r2⟩
            · rw [ho1] at h1; exact absurd h1 (by simp)
            · cases r2 with
              | some r => simp
              | none =>
                have h2 : (dpllF f cnf1 (insertA a1 lit.name false)).isSome :=
                  ih _ _ (by omega)
                rcases ho2 : dpllF f cnf1 (insertA a1 lit.name false) with
                  _ | ⟨a3, r3⟩
                · rw [ho2] at h2; exact absurd h2 (by simp)
                · cases r3 with
                  | some r => simp
                  | none => simp

/-- Total wrapper for dpll: run the fueled embedding with the (sufficient)
fuel equal to the number of distinct unassigned variables plus one. -/
def dpll (cnf : CNF) (a : Assignment) : Assignment × Option Assignment :=
  (dpllF ((unassignedVars cnf a).card + 1) cnf a).get
    (dpllF_total _ cnf a (Nat.lt_succ_self _))

/-- The wrapper agrees with the fueled embedding. -/
theorem dpll_eq (cnf : CNF) (a : Assignment) :
    dpllF ((unassignedVars cnf a).card + 1) cnf a = some (dpll cnf a) :=
  (Option.some_get _).symm

/-- One assignment extends another: every binding of the first is a binding
of the second. -/
def extendsA (a r : Assignment) : Prop :=
  ∀ n v, lookupA a n = some v → lookupA r n = some v

/-- Extension is reflexive. -/
theorem extendsA_refl (a : Assignment) : extendsA a a := fun _ _ h => h

/-- Extension is transitive. -/
theorem extendsA_trans {a b c : Assignment} (h1 : extendsA a b)
    (h2 : extendsA b c) : extendsA a c := fun n v h => h2 n v (h1 n v h)

/-- Satisfaction of a CNF by an assignment: every clause holds a literal
evaluating to true. -/
def satCNF (r : Assignment) (cnf : CNF) : Prop :=
  ∀ c ∈ cnf, ∃ l ∈ c, literalTrue r l = true

/-- A literal true under an assignment stays true under any extension. -/
theorem literalTrue_mono {a r : Assignment} {l : Literal}
    (hext : extendsA a r) (h : literalTrue a l = true) :
    literalTrue r l = true := by
  unfold literalTrue at h ⊢
  cases hl : lookupA a l.name with
  | none => rw [hl] at h; simp at h
  | some v =>
    rw [hl] at h
    rw [hext l.name v hl]
    exact h

/-- Soundness of simplification: clauses are dropped only when satisfied and
literals only filtered, so any extension satisfying the output satisfies the
input. -/
theorem simplify_sound {cnf cnf2 : CNF} {a r : Assignment}
    (h : simplify cnf a = some cnf2) (hext : extendsA a r)
    (hsat : satCNF r cnf2) : satCNF r cnf := by
  simp only [simplify] at h
  split at h
  · exact absurd h (by simp)
  · simp only [Option.some.injEq] at h
    intro c hc
    by_cases htrue : (c.any fun l => literalTrue a l) = true
    · obtain ⟨l, hl, hlt⟩ := List.any_eq_true.mp htrue
      exact ⟨l, hl, literalTrue_mono hext hlt⟩
    · have hfalse : (c.any fun l => literalTrue a l) = false := by
        cases hb : (c.any fun l => literalTrue a l) with
        | false => rfl
        | true => exact absurd hb htrue
      have hkeep :
          c ∈ cnf.filter (fun clause => !clause.any fun l => literalTrue a l) :=
        List.mem_filter.mpr ⟨hc, by simp [hfalse]⟩
      have hc2 : c.filter (fun l => keepLiteral a l) ∈ cnf2 := by
        rw [← h]
        exact List.mem_map.mpr ⟨c, hkeep, rfl⟩
      obtain ⟨l, hl, hlt⟩ := hsat _ hc2
      exact ⟨l, (List.mem_filter.mp hl).1, hlt⟩

/-- Soundness of unit propagation: on success, any extension of the final
assignment satisfying the output CNF satisfies the input CNF. -/
theorem unit_propagateF_sound :
    ∀ fuel cnf a a1 cnf1, unit_propagateF fuel cnf a = some (a1, some cnf1) →
      ∀ r, extendsA a1 r → satCNF r cnf1 → satCNF r cnf := by
  intro fuel
  induction fuel with
  | zero => intro cnf a a1 cnf1 h; exact absurd h (by simp [unit_propagateF])
  | succ f ih =>
    intro cnf a a1 cnf1 h r hext hsat
    rw [unit_propagateF] at h
    split at h
    · simp only [Option.some.injEq, Prod.mk.injEq, Option.some.injEq] at h
      rw [h.2]
      exact hsat
    · rename_i u hu
      split at h
      · rename_i existing hex
        split at h
        · simp at h
        · split at h
          · simp at h
          · rename_i cnf2 hs
            have hext2 : extendsA a r := fun n v hv =>
              hext n v (unit_propagateF_mono _ _ _ _ _ h n v hv)
            exact simplify_sound hs hext2 (ih _ _ _ _ h r hext hsat)
      · rename_i hex
        split at h
        · simp at h
        · rename_i cnf2 hs
          have hext2 : extendsA (insertA a u.name (!u.negated)) r := fun n v hv =>
            hext n v (unit_propagateF_mono _ _ _ _ _ h n v hv)
          exact simplify_sound hs hext2 (ih _ _ _ _ h r hext hsat)

/-- An insertion of an unassigned variable extends the assignment. -/
theorem extendsA_insert {a : Assignment} {n : String} (v : Bool)
    (hun : lookupA a n = none) : extendsA a (insertA a n v) := by
  intro m w hw
  by_cases hnm : n = m
  · rw [hnm] at hun; rw [hun] at hw; exact absurd hw (by simp)
  · rw [lookupA_insertA_ne a v hnm]; exact hw

/-- Soundness of the search: when dpllF reaches a satisfying result, the
result extends the initial assignment and satisfies every input clause. -/
theorem dpllF_sound :
    ∀ fuel cnf a a1 res, dpllF fuel cnf a = some (a1, some res) →
      extendsA a res ∧ satCNF res cnf := by
  intro fuel
  induction fuel with
  | zero => intro cnf a a1 res h; exact absurd h (by simp [dpllF])
  | succ f ih =>
    intro cnf a a1 res h
    rw [dpllF] at h
    rcases hup : unit_propagate cnf a with ⟨a2, ur⟩
    rw [hup] at h
    have hupF : unit_propagateF (cnf.length + 1) cnf a = some (a2, ur) := by
      rw [unit_propagate_eq, hup]
    have hmonoUP : extendsA a a2 := fun n v hv =>
      unit_propagateF_mono _ _ _ _ _ hupF n v hv
    cases ur with
    | none => simp at h
    | some cnf1 =>
      simp only at h
      split at h
      · rename_i hempty
        simp only [Option.some.injEq, Prod.mk.injEq, Option.some.injEq] at h
        obtain ⟨h1, h2⟩ := h
        subst h2
        refine ⟨hmonoUP, ?_⟩
        refine unit_propagateF_sound _ _ _ _ _ hupF a2 (extendsA_refl a2) ?_
        rw [List.isEmpty_iff] at hempty
        subst hempty
        intro c hc
        exact absurd hc (List.not_mem_nil c)
      · rename_i hnempty
        split at h
        · simp at h
        · cases hp : pick_literal cnf1 a2 with
          | none =>
            rw [hp] at h
            simp at h
          | some lit =>
            rw [hp] at h
            simp only at h
            obtain ⟨hname, hun⟩ := pick_literal_spec hp
            rcases hb1 : dpllF f cnf1 (insertA a2 lit.name true) with _ | ⟨a3, r3⟩
            · rw [hb1] at h; simp at h
            · rw [hb1] at h
              cases r3 with
              | some r =>
                simp only [Option.some.injEq, Prod.mk.injEq, Option.some.injEq] at h
                obtain ⟨hh1, hh2⟩ := h
                subst hh2
                obtain ⟨hext1, hsat1⟩ := ih _ _ _ _ hb1
                have hextRes : extendsA a2 r :=
                  extendsA_trans (extendsA_insert true hun) hext1
                exact ⟨extendsA_trans hmonoUP hextRes,
                  unit_propagateF_sound _ _ _ _ _ hupF r hextRes hsat1⟩
              | none =>
                rcases hb2 : dpllF f cnf1 (insertA a2 lit.name false) with
                  _ | ⟨a4, r4⟩
                · rw [hb2] at h; simp at h
                · rw [hb2] at h
                  cases r4 with
                  | some r =>
                    simp only [Option.some.injEq, Prod.mk.injEq,
                      Option.some.injEq] at h
                    obtain ⟨hh1, hh2⟩ := h
                    subst hh2
                    obtain ⟨hext1, hsat1⟩ := ih _ _ _ _ hb2
                    have hextRes : extendsA a2 r :=
                      extendsA_trans (extendsA_insert false hun) hext1
                    exact ⟨extendsA_trans hmonoUP hextRes,
                      unit_propagateF_sound _ _ _ _ _ hupF r hextRes hsat1⟩
                  | none => simp at h

/-- The caller-visible assignment returned by dpllF is always the one mutated
by the initial unit propagation, so it extends the initial assignment. -/
theorem dpllF_frame :
    ∀ fuel cnf a a1 r, dpllF fuel cnf a = some (a1, r) →
      extendsA a a1 := by
  intro fuel cnf a a1 r h
  cases fuel with
  | zero => exact absurd h (by simp [dpllF])
  | succ f =>
    rw [dpllF] at h
    rcases hup : unit_propagate cnf a with ⟨a2, ur⟩
    rw [hup] at h
    have hupF : unit_propagateF (cnf.length + 1) cnf a = some (a2, ur) := by
      rw [unit_propagate_eq, hup]
    have hmonoUP : extendsA a a2 := fun n v hv =>
      unit_propagateF_mono _ _ _ _ _ hupF n v hv
    cases ur with
    | none =>
      simp only [Option.some.injEq, Prod.mk.injEq] at h
      rw [← h.1]
      exact hmonoUP
    | some cnf1 =>
      simp only at h
      split at h
      · simp only [Option.some.injEq, Prod.mk.injEq] at h
        rw [← h.1]; exact hmonoUP
      · split at h
        · simp only [Option.some.injEq, Prod.mk.injEq] at h
          rw [← h.1]; exact hmonoUP
        · cases hp : pick_literal cnf1 a2 with
          | none =>
            rw [hp] at h
            simp only [Option.some.injEq, Prod.mk.injEq] at h
            rw [← h.1]; exact hmonoUP
          | some lit =>
            rw [hp] at h
            simp only at h
            rcases hb1 : dpllF f cnf1 (insertA a2 lit.name true) with _ | ⟨a3, r3⟩
            · rw [hb1] at h; simp at h
            · rw [hb1] at h
              cases r3 with
              | some r2 =>
                simp only [Option.some.injEq, Prod.mk.injEq] at h
                rw [← h.1]; exact hmonoUP
              | none =>
                rcases hb2 : dpllF f cnf1 (insertA a2 lit.name false) with
                  _ | ⟨a4, r4⟩
                · rw [hb2] at h; simp at h
                · rw [hb2] at h
                  cases r4 with
                  | some r2 =>
                    simp only [Option.some.injEq, Prod.mk.injEq] at h
                    rw [← h.1]; exact hmonoUP
                  | none =>
                    simp only [Option.some.injEq, Prod.mk.injEq] at h
                    rw [← h.1]; exact hmonoUP

/-- A unit clause whose literal is falsified by the assignment survives
simplification unchanged: the clause holds no true literal, so the first
retain keeps it, and the second retain keeps the false literal. -/
theorem simplify_keeps_false_unit {cnf cnf2 : CNF} {a : Assignment}
    {l : Literal} (hs : simplify cnf a = some cnf2) (hmem : [l] ∈ cnf)
    (hlook : lookupA a l.name = some l.negated) : [l] ∈ cnf2 := by
  simp only [simplify] at hs
  split at hs
  · exact absurd hs (by simp)
  · simp only [Option.some.injEq] at hs
    subst hs
    have hfalse : literalTrue a l = false := by
      unfold literalTrue
      rw [hlook]
      simp
    have hkeep : keepLiteral a l = true := by
      unfold keepLiteral
      rw [hlook]
      simp
    have h1 : [l] ∈ cnf.filter (fun clause => !clause.any fun l => literalTrue a l) := by
      refine List.mem_filter.mpr ⟨hmem, ?_⟩
      simp [hfalse]
    refine List.mem_map.mpr ⟨[l], h1, ?_⟩
    simp [hkeep]

/-- Propagation can never succeed while a unit clause conflicts with the
assignment: the conflicting unit clause survives every simplification, its
variable is never reassigned, and the loop cannot stop while it remains, so
the first outcome is the failure return. -/
theorem unit_propagateF_conflict :
    ∀ fuel cnf a l p, unit_propagateF fuel cnf a = some p → [l] ∈ cnf →
      lookupA a l.name = some l.negated → p.2 = none := by
  intro fuel
  induction fuel with
  | zero => intro cnf a l p h; exact absurd h (by simp [unit_propagateF])
  | succ f ih =>
    intro cnf a l p h hmem hlook
    rw [unit_propagateF] at h
    split at h
    · rename_i hu
      have hsome := findUnit_isSome hmem
      rw [hu] at hsome
      exact absurd hsome (by simp)
    · rename_i u hu
      split at h
      · rename_i existing hex
        split at h
        · simp only [Option.some.injEq] at h
          rw [← h]
        · split at h
          · simp only [Option.some.injEq] at h
            rw [← h]
          · rename_i cnf2 hs
            exact ih _ _ _ _ h (simplify_keeps_false_unit hs hmem hlook) hlook
      · rename_i hex
        have hne : u.name ≠ l.name := by
          intro heq
          rw [heq, hlook] at hex
          exact absurd hex (by simp)
        have hlook2 :
            lookupA (insertA a u.name (!u.negated)) l.name = some l.negated := by
          rw [lookupA_insertA_ne a _ hne]
          exact hlook
        split at h
        · simp only [Option.some.injEq] at h
          rw [← h]
        · rename_i cnf2 hs
          exact ih _ _ _ _ h (simplify_keeps_false_unit hs hmem hlook2) hlook2

/-- Idempotence of simplification: a successful output is a fixed point of
simplify under the same assignment. -/
theorem simplify_idem {cnf cnf2 : CNF} {a : Assignment}
    (h : simplify cnf a = some cnf2) : simplify cnf2 a = some cnf2 := by
  simp only [simplify] at h ⊢
  split at h
  · exact absurd h (by simp)
  · rename_i hne
    simp only [Option.some.injEq] at h
    have hmem2 : ∀ c2 ∈ cnf2, ∃ c1 : Clause,
        ((!c1.any fun l => literalTrue a l) = true) ∧
          c2 = c1.filter (fun l => keepLiteral a l) := by
      intro c2 hc2
      rw [← h] at hc2
      obtain ⟨c1, hc1, heq⟩ := List.mem_map.mp hc2
      exact ⟨c1, (List.mem_filter.mp hc1).2, heq.symm⟩
    have hnotrue : ∀ c2 ∈ cnf2, (!c2.any fun l => literalTrue a l) = true := by
      intro c2 hc2
      obtain ⟨c1, hnt, heq⟩ := hmem2 c2 hc2
      subst heq
      simp only [Bool.not_eq_true', List.any_eq_false] at hnt ⊢
      intro l hl
      exact hnt l (List.mem_filter.mp hl).1
    have hstep1 :
        cnf2.filter (fun clause => !clause.any fun l => literalTrue a l) = cnf2 :=
      List.filter_eq_self.mpr hnotrue
    have hfix : ∀ c2 ∈ cnf2, c2.filter (fun l => keepLiteral a l) = c2 := by
      intro c2 hc2
      obtain ⟨c1, hnt, heq⟩ := hmem2 c2 hc2
      subst heq
      rw [List.filter_filter]
      exact List.filter_congr (fun x _ => Bool.and_self _)
    have hstep2 :
        cnf2.map (fun clause => clause.filter fun l => keepLiteral a l) = cnf2 := by
      rw [List.map_congr_left hfix]
      exact List.map_id cnf2
    rw [hstep1, hstep2]
    rw [h] at hne
    rw [if_neg hne]

/-- The positive literal over variable a, as produced by the parser for the
token a. -/
def litA : Literal := ⟨"a", false⟩

/-- The positive literal over variable b. -/
def litB : Literal := ⟨"b", false⟩

/-- The negative literal over variable a, as produced by the parser for the
token -a. -/
def litNotA : Literal := ⟨"a", true⟩

/-- Satisfaction of a CNF by a total assignment of the variables: every
clause holds a literal whose variable carries the value its polarity
requires. -/
def satTotal (f : String → Bool) (cnf : CNF) : Prop :=
  ∀ c ∈ cnf, ∃ l ∈ c, f l.name = !l.negated

/-- C1: Soundness of the solver. Whenever dpll returns a satisfying
assignment, every clause of the original input CNF contains at least one
literal whose variable is assigned, by the returned assignment, the value
its polarity requires. -/
theorem C1_dpll_sound (cnf : CNF) (a a1 res : Assignment)
    (h : dpll cnf a = (a1, some res)) :
    ∀ c ∈ cnf, ∃ l ∈ c, lookupA res l.name = some (!l.negated) := by
  have hF : dpllF ((unassignedVars cnf a).card + 1) cnf a =
      some (a1, some res) := by
    rw [dpll_eq, h]
  obtain ⟨hext, hsat⟩ := dpllF_sound _ _ _ _ _ hF
  intro c hc
  obtain ⟨l, hl, hlt⟩ := hsat c hc
  refine ⟨l, hl, ?_⟩
  unfold literalTrue at hlt
  cases hv : lookupA res l.name with
  | none => rw [hv] at hlt; simp at hlt
  | some v =>
    rw [hv] at hlt
    simp only [bne_iff_ne, ne_eq] at hlt
    cases v <;> cases hneg : l.negated <;> simp_all

/-- Witness for C1 at the satisfiable one-clause input holding only the
positive literal a. -/
theorem C1_dpll_sound_witness :
    dpll [[litA]] [] = ([("a", true)], some [("a", true)]) ∧
      ∀ c ∈ [[litA]], ∃ l ∈ c, lookupA [("a", true)] l.name = some (!l.negated) :=
  ⟨by decide, C1_dpll_sound [[litA]] [] [("a", true)] [("a", true)] (by decide)⟩

/-- C2: the claim states that dpll on the one-clause CNF of the two positive
literals a and b returns Satisfiable with a mapped to true. The code instead
returns the Unsatisfiable outcome on exactly this input, contradicting the
repository's own test test_formula_3, which asserts a Some result for it:
with no unit clause present, unit_propagate never applies the branch
assignments to the formula, no clause is ever removed as satisfied, and
every branch of the search ends in the dead-end fallback. This theorem
evaluates the embedded code at that input. -/
theorem C2_dpll_ab_unsat : dpll [[litA, litB]] [] = ([], none) := by decide

/-- C3: the claim states simplification removes every falsified literal from
every surviving clause. The code keeps falsified literals: its second retain
condition is inverted relative to its own comment, so at the CNF of the one
clause a-or-b with a assigned false, the falsified literal a survives in the
output clause. -/
theorem C3_simplify_keeps_false_literal :
    simplify [[litA, litB]] [("a", false)] = some [[litA, litB]] ∧
      litA ∈ [litA, litB] ∧
      lookupA [("a", false)] litA.name = some litA.negated := by decide

/-- C4: Completeness of the solver. If no total assignment of the variables
satisfies the CNF, dpll started from the empty assignment returns the
Unsatisfiable outcome. -/
theorem C4_dpll_complete (cnf : CNF)
    (h : ∀ f : String → Bool, ¬ satTotal f cnf) :
    (dpll cnf []).2 = none := by
  rcases hd : dpll cnf [] with ⟨a1, r⟩
  cases r with
  | none => rfl
  | some res =>
    exfalso
    have hF : dpllF ((unassignedVars cnf []).card + 1) cnf [] =
        some (a1, some res) := by
      rw [dpll_eq, hd]
    obtain ⟨hext, hsat⟩ := dpllF_sound _ _ _ _ _ hF
    apply h (fun n => (lookupA res n).getD true)
    intro c hc
    obtain ⟨l, hl, hlt⟩ := hsat c hc
    refine ⟨l, hl, ?_⟩
    unfold literalTrue at hlt
    cases hv : lookupA res l.name with
    | none => rw [hv] at hlt; simp at hlt
    | some v =>
      rw [hv] at hlt
      simp only [hv, Option.getD_some]
      simp only [bne_iff_ne, ne_eq] at hlt
      cases v <;> cases hneg : l.negated <;> simp_all

/-- Witness for C4 at the unsatisfiable pair of unit clauses a and -a. -/
theorem C4_dpll_complete_witness :
    (∀ f : String → Bool, ¬ satTotal f [[litA], [litNotA]]) ∧
      (dpll [[litA], [litNotA]] []).2 = none := by
  have hun : ∀ f : String → Bool, ¬ satTotal f [[litA], [litNotA]] := by
    intro f hf
    obtain ⟨l1, hl1, he1⟩ := hf [litA] (List.mem_cons_self _ _)
    obtain ⟨l2, hl2, he2⟩ :=
      hf [litNotA] (List.mem_cons_of_mem _ (List.mem_cons_self _ _))
    rw [List.mem_singleton] at hl1 hl2
    subst hl1
    subst hl2
    simp only [litA, litNotA, Bool.not_false, Bool.not_true] at he1 he2
    rw [he1] at he2
    exact Bool.noConfusion he2
  exact ⟨hun, C4_dpll_complete [[litA], [litNotA]] hun⟩

/-- C5: Unit-propagation conflict policy. Whenever some unit clause of the
CNF requires the truth value opposite to the one already recorded for its
variable (the recorded value equals the literal's negated flag, while
satisfaction requires its negation), unit_propagate reports failure; and
dpll on the pair of unit clauses a and -a from the empty assignment returns
the Unsatisfiable outcome. -/
theorem C5_unit_conflict :
    (∀ (cnf : CNF) (a : Assignment) (l : Literal), [l] ∈ cnf →
        lookupA a l.name = some l.negated → (unit_propagate cnf a).2 = none) ∧
      (dpll [[litA], [litNotA]] []).2 = none := by
  constructor
  · intro cnf a l hmem hlook
    rcases hup : unit_propagate cnf a with ⟨a1, r⟩
    have hF : unit_propagateF (cnf.length + 1) cnf a = some (a1, r) := by
      rw [unit_propagate_eq, hup]
    exact unit_propagateF_conflict _ _ _ _ _ hF hmem hlook
  · decide

/-- Witness for C5 at a unit clause -a conflicting with the recorded value
true for a. -/
theorem C5_unit_conflict_witness :
    [litNotA] ∈ [[litNotA]] ∧
      lookupA [("a", true)] litNotA.name = some litNotA.negated ∧
      (unit_propagate [[litNotA]] [("a", true)]).2 = none :=
  ⟨by decide, by decide,
    C5_unit_conflict.1 [[litNotA]] [("a", true)] litNotA (by decide) (by decide)⟩

/-- C6: Idempotence of simplification: when simplify succeeds, its output is
a fixed point of simplify under the same assignment, so applying it twice
equals applying it once. -/
theorem C6_simplify_idempotent (cnf cnf2 : CNF) (a : Assignment)
    (h : simplify cnf a = some cnf2) : simplify cnf2 a = some cnf2 :=
  simplify_idem h

/-- Witness for C6 at a simplification that really shrinks the CNF. -/
theorem C6_simplify_idempotent_witness :
    simplify [[litA], [litB]] [("a", true)] = some [[litB]] ∧
      simplify [[litB]] [("a", true)] = some [[litB]] :=
  ⟨by decide, C6_simplify_idempotent [[litA], [litB]] [[litB]] [("a", true)]
    (by decide)⟩

/-- C7: Termination of the search. Fuel exceeding the number of distinct
unassigned variables of the formula always suffices for the fueled recursion
to reach a result: each nested branch binds one previously unassigned
variable, so the recursion depth is bounded by the number of distinct
variables occurring in the formula. -/
theorem C7_dpll_terminates (fuel : Nat) (cnf : CNF) (a : Assignment)
    (h : (unassignedVars cnf a).card < fuel) : (dpllF fuel cnf a).isSome :=
  dpllF_total fuel cnf a h

/-- Witness for C7: two distinct variables, fuel three. -/
theorem C7_dpll_terminates_witness :
    (unassignedVars [[litA, litB]] []).card < 3 ∧
      (dpllF 3 [[litA, litB]] []).isSome :=
  ⟨by decide, C7_dpll_terminates 3 [[litA, litB]] [] (by decide)⟩

/-- C8: the claim states the defensive dead-end branch of the search driver
is unreachable: after a successful propagation whose output CNF is non-empty
and free of empty clauses, pick_literal always finds an unassigned literal.
The code violates this: at the CNF of the one clause a-or-b with both a and
b assigned, unit propagation succeeds and returns the CNF unchanged, which
is non-empty with no empty clause, yet pick_literal finds nothing, so the
step-4 fallback reporting failure is taken. This very state arises inside
the dpll run on that CNF from the empty assignment. -/
theorem C8_dead_end_reachable :
    (unit_propagate [[litA, litB]] [("a", true), ("b", true)]).2 =
        some [[litA, litB]] ∧
      ([[litA, litB]] : CNF) ≠ [] ∧
      (([[litA, litB]] : CNF).any fun clause => clause.isEmpty) = false ∧
      pick_literal [[litA, litB]] [("a", true), ("b", true)] = none := by
  decide

/-- C9: dpll never overwrites an existing assignment entry: every variable
bound at call time keeps exactly its value both in the caller-visible
mutated assignment and in any satisfying assignment returned. -/
theorem C9_dpll_no_overwrite (cnf : CNF) (a a1 : Assignment)
    (r : Option Assignment) (h : dpll cnf a = (a1, r)) :
    (∀ n v, lookupA a n = some v → lookupA a1 n = some v) ∧
      ∀ res, r = some res → ∀ n v, lookupA a n = some v →
        lookupA res n = some v := by
  have hF : dpllF ((unassignedVars cnf a).card + 1) cnf a = some (a1, r) := by
    rw [dpll_eq, h]
  constructor
  · exact dpllF_frame _ _ _ _ _ hF
  · intro res hres n v hv
    subst hres
    exact (dpllF_sound _ _ _ _ _ hF).1 n v hv

/-- Witness for C9: an entry for b present before the call survives both in
the mutated assignment and in the returned satisfying assignment. -/
theorem C9_dpll_no_overwrite_witness :
    lookupA [("b", false)] "b" = some false ∧
      lookupA [("a", true), ("b", false)] "b" = some false :=
  ⟨by decide,
    (C9_dpll_no_overwrite [[litA]] [("b", false)] [("a", true), ("b", false)]
      (some [("a", true), ("b", false)]) (by decide)).1 "b" false (by decide)⟩

/-- C10: No rollback on propagation conflict. unit_propagate never removes or
changes an assignment entry, whatever it returns, so every entry inserted
before a conflict is still present in the caller-visible assignment when the
failure is reported; concretely, on the conflicting pair of unit clauses a
and -a from the empty assignment, the failure return still carries the entry
a mapped to true inserted before the conflict was detected. -/
theorem C10_no_rollback :
    (∀ (cnf : CNF) (a : Assignment) (n : String) (v : Bool),
        lookupA a n = some v → lookupA (unit_propagate cnf a).1 n = some v) ∧
      unit_propagate [[litA], [litNotA]] [] = ([("a", true)], none) := by
  constructor
  · intro cnf a n v hv
    rcases hup : unit_propagate cnf a with ⟨a1, r⟩
    have hF : unit_propagateF (cnf.length + 1) cnf a = some (a1, r) := by
      rw [unit_propagate_eq, hup]
    exact unit_propagateF_mono _ _ _ _ _ hF n v hv
  · decide

/-- Witness for C10: an entry present before propagation survives in the
mutated assignment. -/
theorem C10_no_rollback_witness :
    lookupA [("b", true)] "b" = some true ∧
      lookupA (unit_propagate [[litA]] [("b", true)]).1 "b" = some true :=
  ⟨by decide, C10_no_rollback.1 [[litA]] [("b", true)] "b" true (by decide)⟩
